import Mathlib

namespace QuestionApp

/-! Shallow embedding of `src/question_app.py`.

Python strings are modelled as `List Char`.  The Python string operations the
program uses (`in`, `strip`, `rstrip`, `count`, `split`, `replace`,
`'\n'.join`, truthiness of strings and lists, and the one `re.sub` pattern)
are defined below on that representation.  Machine floats appearing in the
image-scaling arithmetic are modelled as exact rationals, with the floor
taken where Python applies `int(...)` to a non-negative float. -/

abbrev Str := List Char

/-- ASCII model of the characters Python `str.strip` removes and of the
regex class `\s` in the renumbering pattern. -/
def isPySpace (c : Char) : Bool :=
  c = ' ' || c = '\t' || c = '\n' || c = '\r' || c = '\x0b' || c = '\x0c'

/-- Python substring test `t in s`. -/
def pyIn (t : Str) : Str → Bool
  | [] => t.isPrefixOf []
  | c :: rest => t.isPrefixOf (c :: rest) || pyIn t rest

/-- Python `s.strip()`. -/
def strip (s : Str) : Str :=
  ((s.dropWhile isPySpace).reverse.dropWhile isPySpace).reverse

/-- Python `s.rstrip()` (used on lines in the DOCX encoder). -/
def rstrip (s : Str) : Str :=
  (s.reverse.dropWhile isPySpace).reverse

/-- Number of positions at which `t` occurs in `s`.  For the inline image
marker `[BILD]`, which cannot overlap itself, this coincides with the
non-overlapping count computed by Python `s.count(t)`. -/
def countOcc (t : Str) : Str → Nat
  | [] => 0
  | c :: rest => (if t.isPrefixOf (c :: rest) then 1 else 0) + countOcc t rest

/-- Python `'\n'.join(buffer)`, as applied in `save_current_question`. -/
def joinNL : List Str → Str
  | [] => []
  | [x] => x
  | x :: y :: rest => x ++ '\n' :: joinNL (y :: rest)

/-- The reserved start delimiter `---START---`. -/
def START : Str := "---START---".data

/-- The reserved end delimiter `---END---`. -/
def ENDT : Str := "---END---".data

/-- The reserved inline image marker `[BILD]`. -/
def MARKER : Str := "[BILD]".data

/-! ### The document parser (`parse_questions_with_images`)

A paragraph is modelled as its text together with the list of images that
`extract_images_from_paragraph` returns for it; image blobs are kept
abstract in a type parameter `α`. -/

structure Paragraph (α : Type) where
  text : Str
  images : List α
  deriving DecidableEq

structure Question (α : Type) where
  text : Str
  images : List α
  deriving DecidableEq

/-- The transient parse state: accumulated questions, the pending image list
(`current_question['images']`), the pending `text_buffer`, and the
`in_question` flag. -/
structure PState (α : Type) where
  questions : List (Question α)
  imgs : List α
  buf : List Str
  inQ : Bool
  deriving DecidableEq

/-- `save_current_question`: appends a finalized question (text = buffered
lines joined by newline) when the text buffer or pending image list is
non-empty. -/
def save_current_question (imgs : List α) (buf : List Str)
    (qs : List (Question α)) : List (Question α) :=
  if !buf.isEmpty || !imgs.isEmpty then qs ++ [⟨joinNL buf, imgs⟩] else qs

/-- One iteration of the parser loop body on a single paragraph. -/
def parseStep (st : PState α) (p : Paragraph α) : PState α :=
  if pyIn START p.text then
    ⟨if st.inQ then save_current_question st.imgs st.buf st.questions
      else st.questions, [], [], true⟩
  else if pyIn ENDT p.text then
    ⟨if st.inQ then save_current_question st.imgs st.buf st.questions
      else st.questions, st.imgs, st.buf, false⟩
  else if st.inQ then
    if !p.images.isEmpty then
      ⟨st.questions, st.imgs ++ p.images,
        (if !(strip p.text).isEmpty then st.buf ++ [p.text] else st.buf)
          ++ List.replicate p.images.length MARKER, true⟩
    else
      ⟨st.questions, st.imgs,
        if !p.text.isEmpty then st.buf ++ [p.text] else st.buf, true⟩
  else st

def initState : PState α := ⟨[], [], [], false⟩

/-- The parser state after consuming a prefix of the paragraph stream. -/
def stateAfter (ps : List (Paragraph α)) : PState α :=
  ps.foldl parseStep initState

/-- `parse_questions_with_images`: run the loop over all paragraphs, then
finalize a block left open at end of input. -/
def parse_questions_with_images (ps : List (Paragraph α)) : List (Question α) :=
  let st := stateAfter ps
  if st.inQ then save_current_question st.imgs st.buf st.questions
  else st.questions

/-! ### String lemmas

Occurrence counting and substring containment distribute over a separator
character that does not occur in the searched-for token; in particular over
the newline used by `'\n'.join`. -/

theorem mem_of_prefix_of_length_lt {t x y : Str} {c : Char}
    (h : t <+: x ++ c :: y) (hl : x.length < t.length) : c ∈ t := by
  have ht := List.prefix_iff_eq_take.mp h
  rw [List.take_append_eq_append_take] at ht
  obtain ⟨k, hk⟩ : ∃ k, t.length - x.length = k + 1 :=
    ⟨t.length - x.length - 1, by omega⟩
  rw [hk, List.take_succ_cons] at ht
  rw [ht]
  exact List.mem_append_right _ (List.mem_cons_self _ _)

theorem prefix_append_sep_iff {t x y : Str} {c : Char} (hc : c ∉ t) :
    t <+: x ++ c :: y ↔ t <+: x := by
  constructor
  · intro h
    rcases Nat.lt_or_ge x.length t.length with hl | hl
    · exact absurd (mem_of_prefix_of_length_lt h hl) hc
    · have h2 := List.prefix_take_iff.mpr ⟨h, hl⟩
      rwa [List.take_left] at h2
  · intro h
    exact h.trans (List.prefix_append x (c :: y))

theorem isPrefixOf_append_sep {t x y : Str} {c : Char} (hc : c ∉ t) :
    t.isPrefixOf (x ++ c :: y) = t.isPrefixOf x := by
  rw [Bool.eq_iff_iff]
  simp only [List.isPrefixOf_iff_prefix]
  exact prefix_append_sep_iff hc

theorem isPrefixOf_sep_cons_eq_false {t y : Str} {c : Char} (ht : t ≠ [])
    (hc : c ∉ t) : t.isPrefixOf (c :: y) = false := by
  rcases t with _ | ⟨t0, ts⟩
  · exact absurd rfl ht
  · rw [Bool.eq_false_iff]
    intro h
    have h2 := List.isPrefixOf_iff_prefix.mp h
    rw [List.cons_prefix_cons] at h2
    exact hc (h2.1 ▸ List.mem_cons_self _ _)

theorem pyIn_nil_eq_false {t : Str} (ht : t ≠ []) : pyIn t [] = false := by
  rcases t with _ | ⟨t0, ts⟩
  · exact absurd rfl ht
  · rfl

theorem countOcc_append_sep {t : Str} {c : Char} (ht : t ≠ []) (hc : c ∉ t) :
    ∀ x y : Str, countOcc t (x ++ c :: y) = countOcc t x + countOcc t y := by
  intro x
  induction x with
  | nil =>
    intro y
    simp [countOcc, isPrefixOf_sep_cons_eq_false ht hc]
  | cons a x ih =>
    intro y
    show (if t.isPrefixOf ((a :: x) ++ c :: y) = true then 1 else 0)
          + countOcc t (x ++ c :: y)
        = ((if t.isPrefixOf (a :: x) = true then 1 else 0) + countOcc t x)
          + countOcc t y
    rw [isPrefixOf_append_sep hc, ih y]
    omega

theorem pyIn_append_sep {t : Str} {c : Char} (ht : t ≠ []) (hc : c ∉ t) :
    ∀ x y : Str, pyIn t (x ++ c :: y) = (pyIn t x || pyIn t y) := by
  intro x
  induction x with
  | nil =>
    intro y
    rw [pyIn_nil_eq_false ht]
    show (t.isPrefixOf (c :: y) || pyIn t y) = (false || pyIn t y)
    rw [isPrefixOf_sep_cons_eq_false ht hc]
  | cons a x ih =>
    intro y
    show (t.isPrefixOf ((a :: x) ++ c :: y) || pyIn t (x ++ c :: y))
        = ((t.isPrefixOf (a :: x) || pyIn t x) || pyIn t y)
    rw [isPrefixOf_append_sep hc, ih y, Bool.or_assoc]

theorem countOcc_joinNL {t : Str} (ht : t ≠ []) (hnl : '\n' ∉ t) :
    ∀ l : List Str, countOcc t (joinNL l) = (l.map (countOcc t)).sum := by
  intro l
  induction l with
  | nil => simp [joinNL, countOcc]
  | cons x xs ih =>
    cases xs with
    | nil => simp [joinNL]
    | cons y rest =>
      rw [joinNL, countOcc_append_sep ht hnl x (joinNL (y :: rest)), ih]
      simp

theorem pyIn_joinNL {t : Str} (ht : t ≠ []) (hnl : '\n' ∉ t) :
    ∀ l : List Str, pyIn t (joinNL l) = l.any (pyIn t) := by
  intro l
  induction l with
  | nil =>
    rcases t with _ | ⟨t0, ts⟩
    · exact absurd rfl ht
    · simp [joinNL, pyIn, List.isPrefixOf]
  | cons x xs ih =>
    cases xs with
    | nil => simp [joinNL]
    | cons y rest =>
      rw [joinNL, pyIn_append_sep ht hnl x (joinNL (y :: rest)), ih]
      simp

theorem countOcc_eq_zero_of_not_pyIn {t : Str} :
    ∀ {s : Str}, pyIn t s = false → countOcc t s = 0 := by
  intro s
  induction s with
  | nil => intro _; rfl
  | cons c rest ih =>
    intro h
    rw [pyIn, Bool.or_eq_false_iff] at h
    rw [countOcc, h.1, ih h.2]
    simp

theorem joinNL_ne_nil : ∀ {l : List Str}, (∀ e ∈ l, e ≠ []) → l ≠ [] →
    joinNL l ≠ []
  | [], _, hl => absurd rfl hl
  | [x], h, _ => by simpa [joinNL] using h x (List.mem_cons_self _ _)
  | x :: y :: rest, _, _ => by simp [joinNL]

/-! ### Parser induction infrastructure -/

theorem foldl_inv {α : Type} (I : PState α → Prop) :
    ∀ (ps : List (Paragraph α)) (st : PState α),
      (∀ q p, p ∈ ps → I q → I (parseStep q p)) → I st →
      I (ps.foldl parseStep st)
  | [], _, _, h0 => h0
  | p :: ps, st, h, h0 =>
    foldl_inv I ps (parseStep st p)
      (fun q r hr hq => h q r (List.mem_cons_of_mem _ hr) hq)
      (h st p (List.mem_cons_self _ _) h0)

theorem parseStep_start {α : Type} {st : PState α} {p : Paragraph α}
    (h : pyIn START p.text = true) :
    parseStep st p =
      ⟨if st.inQ then save_current_question st.imgs st.buf st.questions
        else st.questions, [], [], true⟩ := by
  simp [parseStep, h]

theorem parseStep_endt {α : Type} {st : PState α} {p : Paragraph α}
    (h1 : pyIn START p.text = false) (h2 : pyIn ENDT p.text = true) :
    parseStep st p =
      ⟨if st.inQ then save_current_question st.imgs st.buf st.questions
        else st.questions, st.imgs, st.buf, false⟩ := by
  simp [parseStep, h1, h2]

theorem parseStep_imgs {α : Type} {st : PState α} {p : Paragraph α}
    (h1 : pyIn START p.text = false) (h2 : pyIn ENDT p.text = false)
    (h3 : st.inQ = true) (h4 : p.images.isEmpty = false) :
    parseStep st p =
      ⟨st.questions, st.imgs ++ p.images,
        (if !(strip p.text).isEmpty then st.buf ++ [p.text] else st.buf)
          ++ List.replicate p.images.length MARKER, true⟩ := by
  simp [parseStep, h1, h2, h3, h4]

theorem parseStep_noimg {α : Type} {st : PState α} {p : Paragraph α}
    (h1 : pyIn START p.text = false) (h2 : pyIn ENDT p.text = false)
    (h3 : st.inQ = true) (h4 : p.images.isEmpty = true) :
    parseStep st p =
      ⟨st.questions, st.imgs,
        if !p.text.isEmpty then st.buf ++ [p.text] else st.buf, true⟩ := by
  simp [parseStep, h1, h2, h3, h4]

theorem parseStep_outside {α : Type} {st : PState α} {p : Paragraph α}
    (h1 : pyIn START p.text = false) (h2 : pyIn ENDT p.text = false)
    (h3 : st.inQ = false) : parseStep st p = st := by
  simp [parseStep, h1, h2, h3]

theorem save_mem {α : Type} {imgs : List α} {buf : List Str}
    {qs : List (Question α)} {q : Question α}
    (h : q ∈ save_current_question imgs buf qs) :
    q ∈ qs ∨ (q = ⟨joinNL buf, imgs⟩ ∧ (buf ≠ [] ∨ imgs ≠ [])) := by
  unfold save_current_question at h
  by_cases hc : (!buf.isEmpty || !imgs.isEmpty) = true
  · rw [if_pos hc] at h
    rcases List.mem_append.mp h with h | h
    · exact Or.inl h
    · exact Or.inr ⟨List.mem_singleton.mp h, by simpa using hc⟩
  · rw [if_neg hc] at h
    exact Or.inl h

theorem START_ne_nil : START ≠ [] := by decide

theorem ENDT_ne_nil : ENDT ≠ [] := by decide

theorem MARKER_ne_nil : MARKER ≠ [] := by decide

theorem nl_not_mem_START : '\n' ∉ START := by decide

theorem nl_not_mem_ENDT : '\n' ∉ ENDT := by decide

theorem nl_not_mem_MARKER : '\n' ∉ MARKER := by decide

theorem strip_nil : strip ([] : Str) = [] := rfl

/-! ### Claim C10: delimiter tokens never survive into question text -/

theorem noTok_save {α : Type} {imgs : List α} {buf : List Str}
    {qs : List (Question α)}
    (hb : ∀ e ∈ buf, pyIn START e = false ∧ pyIn ENDT e = false)
    (hq : ∀ q ∈ qs, pyIn START q.text = false ∧ pyIn ENDT q.text = false) :
    ∀ q ∈ save_current_question imgs buf qs,
      pyIn START q.text = false ∧ pyIn ENDT q.text = false := by
  intro q hqmem
  rcases save_mem hqmem with h | ⟨h, _⟩
  · exact hq q h
  · subst h
    constructor
    · rw [pyIn_joinNL START_ne_nil nl_not_mem_START]
      simp only [List.any_eq_false]
      intro e he
      simp [(hb e he).1]
    · rw [pyIn_joinNL ENDT_ne_nil nl_not_mem_ENDT]
      simp only [List.any_eq_false]
      intro e he
      simp [(hb e he).2]

theorem noTok_step {α : Type} {st : PState α} (p : Paragraph α)
    (h : (∀ e ∈ st.buf, pyIn START e = false ∧ pyIn ENDT e = false)
       ∧ (∀ q ∈ st.questions,
            pyIn START q.text = false ∧ pyIn ENDT q.text = false)) :
    (∀ e ∈ (parseStep st p).buf,
        pyIn START e = false ∧ pyIn ENDT e = false)
    ∧ (∀ q ∈ (parseStep st p).questions,
        pyIn START q.text = false ∧ pyIn ENDT q.text = false) := by
  by_cases h1 : pyIn START p.text = true
  · rw [parseStep_start h1]
    dsimp only
    refine ⟨fun e he => absurd he (List.not_mem_nil e), ?_⟩
    intro q hq
    by_cases hin : st.inQ
    · rw [if_pos hin] at hq
      exact noTok_save h.1 h.2 q hq
    · rw [if_neg hin] at hq
      exact h.2 q hq
  · have h1f : pyIn START p.text = false := by simpa using h1
    by_cases h2 : pyIn ENDT p.text = true
    · rw [parseStep_endt h1f h2]
      dsimp only
      refine ⟨h.1, ?_⟩
      intro q hq
      by_cases hin : st.inQ
      · rw [if_pos hin] at hq
        exact noTok_save h.1 h.2 q hq
      · rw [if_neg hin] at hq
        exact h.2 q hq
    · have h2f : pyIn ENDT p.text = false := by simpa using h2
      by_cases hin : st.inQ
      · by_cases him : p.images.isEmpty
        · rw [parseStep_noimg h1f h2f hin him]
          dsimp only
          refine ⟨?_, h.2⟩
          intro e he
          by_cases htx : (!p.text.isEmpty) = true
          · rw [if_pos htx] at he
            rcases List.mem_append.mp he with he | he
            · exact h.1 e he
            · rw [List.mem_singleton.mp he]
              exact ⟨h1f, h2f⟩
          · rw [if_neg htx] at he
            exact h.1 e he
        · have him' : p.images.isEmpty = false := by simpa using him
          rw [parseStep_imgs h1f h2f hin him']
          dsimp only
          refine ⟨?_, h.2⟩
          intro e he
          rcases List.mem_append.mp he with he | he
          · by_cases htx : (!(strip p.text).isEmpty) = true
            · rw [if_pos htx] at he
              rcases List.mem_append.mp he with he | he
              · exact h.1 e he
              · rw [List.mem_singleton.mp he]
                exact ⟨h1f, h2f⟩
            · rw [if_neg htx] at he
              exact h.1 e he
          · rw [List.eq_of_mem_replicate he]
            exact ⟨by decide, by decide⟩
      · have hin' : st.inQ = false := by simpa using hin
        rw [parseStep_outside h1f h2f hin']
        exact h

/-- C10: for every input paragraph sequence, no question produced by the
parser has a text containing the start token `---START---` or the end token
`---END---`: every paragraph containing either token is consumed as a
delimiter, and none of its text enters any question's text buffer. -/
theorem parse_no_delimiter_in_question_text {α : Type}
    (ps : List (Paragraph α)) :
    ∀ q ∈ parse_questions_with_images ps,
      pyIn START q.text = false ∧ pyIn ENDT q.text = false := by
  have hst := foldl_inv (fun st =>
      (∀ e ∈ st.buf, pyIn START e = false ∧ pyIn ENDT e = false)
      ∧ (∀ q ∈ st.questions,
          pyIn START q.text = false ∧ pyIn ENDT q.text = false))
    ps initState (fun q p _ h => noTok_step p h)
    ⟨fun e he => absurd he (List.not_mem_nil e),
     fun q hq => absurd hq (List.not_mem_nil q)⟩
  intro q hq
  unfold parse_questions_with_images at hq
  by_cases hin : (stateAfter ps).inQ
  · rw [if_pos hin] at hq
    exact noTok_save hst.1 hst.2 q hq
  · rw [if_neg hin] at hq
    exact hst.2 q hq

/-- Witness for C10 at a concrete input. -/
theorem parse_no_delimiter_witness :
    pyIn START "a".data = false ∧ pyIn ENDT "a".data = false :=
  parse_no_delimiter_in_question_text (α := Nat)
    [⟨START, []⟩, ⟨"a".data, []⟩, ⟨ENDT, []⟩] ⟨"a".data, []⟩ (by decide)

/-! ### Claim C4: end-of-input finalization -/

theorem parse_eq_finalize {α : Type} (ps : List (Paragraph α)) :
    parse_questions_with_images ps
      = if (stateAfter ps).inQ then
          save_current_question (stateAfter ps).imgs (stateAfter ps).buf
            (stateAfter ps).questions
        else (stateAfter ps).questions := rfl

theorem strip_ne_nil_of_arg {s : Str} (h : strip s ≠ []) : s ≠ [] := by
  intro hs
  rw [hs] at h
  exact h strip_nil

theorem nonempty_save {α : Type} {imgs : List α} {buf : List Str}
    {qs : List (Question α)} (hb : ∀ e ∈ buf, e ≠ [])
    (hq : ∀ q ∈ qs, q.text ≠ [] ∨ q.images ≠ []) :
    ∀ q ∈ save_current_question imgs buf qs,
      q.text ≠ [] ∨ q.images ≠ [] := by
  intro q hqmem
  rcases save_mem hqmem with h | ⟨h, hcond⟩
  · exact hq q h
  · subst h
    rcases hcond with hbuf | himg
    · exact Or.inl (joinNL_ne_nil hb hbuf)
    · exact Or.inr himg

theorem nonempty_step {α : Type} {st : PState α} (p : Paragraph α)
    (h : (∀ e ∈ st.buf, e ≠ [])
       ∧ (∀ q ∈ st.questions, q.text ≠ [] ∨ q.images ≠ [])) :
    (∀ e ∈ (parseStep st p).buf, e ≠ [])
    ∧ (∀ q ∈ (parseStep st p).questions,
        q.text ≠ [] ∨ q.images ≠ []) := by
  by_cases h1 : pyIn START p.text = true
  · rw [parseStep_start h1]
    dsimp only
    refine ⟨fun e he => absurd he (List.not_mem_nil e), ?_⟩
    intro q hq
    by_cases hin : st.inQ
    · rw [if_pos hin] at hq
      exact nonempty_save h.1 h.2 q hq
    · rw [if_neg hin] at hq
      exact h.2 q hq
  · have h1f : pyIn START p.text = false := by simpa using h1
    by_cases h2 : pyIn ENDT p.text = true
    · rw [parseStep_endt h1f h2]
      dsimp only
      refine ⟨h.1, ?_⟩
      intro q hq
      by_cases hin : st.inQ
      · rw [if_pos hin] at hq
        exact nonempty_save h.1 h.2 q hq
      · rw [if_neg hin] at hq
        exact h.2 q hq
    · have h2f : pyIn ENDT p.text = false := by simpa using h2
      by_cases hin : st.inQ
      · by_cases him : p.images.isEmpty
        · rw [parseStep_noimg h1f h2f hin him]
          dsimp only
          refine ⟨?_, h.2⟩
          intro e he
          by_cases htx : (!p.text.isEmpty) = true
          · rw [if_pos htx] at he
            rcases List.mem_append.mp he with he | he
            · exact h.1 e he
            · rw [List.mem_singleton.mp he]
              exact List.isEmpty_eq_false.mp (by simpa using htx)
          · rw [if_neg htx] at he
            exact h.1 e he
        · have him' : p.images.isEmpty = false := by simpa using him
          rw [parseStep_imgs h1f h2f hin him']
          dsimp only
          refine ⟨?_, h.2⟩
          intro e he
          rcases List.mem_append.mp he with he | he
          · by_cases htx : (!(strip p.text).isEmpty) = true
            · rw [if_pos htx] at he
              rcases List.mem_append.mp he with he | he
              · exact h.1 e he
              · rw [List.mem_singleton.mp he]
                exact strip_ne_nil_of_arg
                  (List.isEmpty_eq_false.mp (by simpa using htx))
            · rw [if_neg htx] at he
              exact h.1 e he
          · rw [List.eq_of_mem_replicate he]
            exact MARKER_ne_nil
      · have hin' : st.inQ = false := by simpa using hin
        rw [parseStep_outside h1f h2f hin']
        exact h

/-- C4: a paragraph stream ending while a block is still open yields exactly
the same questions as if an end delimiter had been appended, and no output
question is ever empty (no text and no images). -/
theorem parse_end_of_input_finalization {α : Type} (ps : List (Paragraph α)) :
    parse_questions_with_images (ps ++ [⟨ENDT, []⟩])
      = parse_questions_with_images ps
    ∧ ∀ q ∈ parse_questions_with_images ps,
        q.text ≠ [] ∨ q.images ≠ [] := by
  constructor
  · have e1 : stateAfter (ps ++ [(⟨ENDT, []⟩ : Paragraph α)])
        = ⟨if (stateAfter ps).inQ then
            save_current_question (stateAfter ps).imgs (stateAfter ps).buf
              (stateAfter ps).questions
          else (stateAfter ps).questions,
          (stateAfter ps).imgs, (stateAfter ps).buf, false⟩ := by
      unfold stateAfter
      rw [List.foldl_append]
      have hA : pyIn START ENDT = false := by decide
      have hB : pyIn ENDT ENDT = true := by decide
      exact parseStep_endt (p := (⟨ENDT, []⟩ : Paragraph α)) hA hB
    rw [parse_eq_finalize, parse_eq_finalize, e1]
    simp
  · have hst := foldl_inv (fun st =>
        (∀ e ∈ st.buf, e ≠ [])
        ∧ (∀ q ∈ st.questions, q.text ≠ [] ∨ q.images ≠ []))
      ps initState (fun q p _ h => nonempty_step p h)
      ⟨fun e he => absurd he (List.not_mem_nil e),
       fun q hq => absurd hq (List.not_mem_nil q)⟩
    intro q hq
    rw [parse_eq_finalize] at hq
    by_cases hin : (stateAfter ps).inQ
    · rw [if_pos hin] at hq
      exact nonempty_save hst.1 hst.2 q hq
    · rw [if_neg hin] at hq
      exact hst.2 q hq

/-- Witness for C4 at a concrete input: an unterminated block with text. -/
theorem parse_end_of_input_witness :
    parse_questions_with_images
        ([⟨START, []⟩, ⟨"a".data, ([] : List Nat)⟩] ++ [⟨ENDT, []⟩])
      = parse_questions_with_images [⟨START, []⟩, ⟨"a".data, ([] : List Nat)⟩]
    ∧ ("a".data ≠ ([] : Str) ∨ ([] : List Nat) ≠ []) :=
  ⟨(parse_end_of_input_finalization _).1,
   (parse_end_of_input_finalization
      [⟨START, []⟩, ⟨"a".data, ([] : List Nat)⟩]).2
     ⟨"a".data, []⟩ (by decide)⟩

/-! ### Claim C1: marker count versus image count -/

/-- Counterexample to C1 as stated: a paragraph inside a block whose own
text is the literal marker `[BILD]` yields a question with one marker
occurrence in its text but an empty image list. -/
theorem marker_count_counterexample :
    parse_questions_with_images
        [⟨START, []⟩, ⟨MARKER, ([] : List Nat)⟩, ⟨ENDT, []⟩]
      = [⟨MARKER, []⟩]
    ∧ countOcc MARKER MARKER = 1
    ∧ ([] : List Nat).length = 0
    ∧ (1 : Nat) ≠ 0 := by decide

theorem countOcc_save {α : Type} {imgs : List α} {buf : List Str}
    {qs : List (Question α)}
    (hb : (buf.map (countOcc MARKER)).sum = imgs.length)
    (hq : ∀ q ∈ qs, countOcc MARKER q.text = q.images.length) :
    ∀ q ∈ save_current_question imgs buf qs,
      countOcc MARKER q.text = q.images.length := by
  intro q hqmem
  rcases save_mem hqmem with h | ⟨h, _⟩
  · exact hq q h
  · subst h
    rw [countOcc_joinNL MARKER_ne_nil nl_not_mem_MARKER]
    exact hb

theorem countOcc_step {α : Type} {st : PState α} (p : Paragraph α)
    (hp : pyIn MARKER p.text = false)
    (h : (st.buf.map (countOcc MARKER)).sum = st.imgs.length
       ∧ ∀ q ∈ st.questions, countOcc MARKER q.text = q.images.length) :
    ((parseStep st p).buf.map (countOcc MARKER)).sum
        = (parseStep st p).imgs.length
    ∧ ∀ q ∈ (parseStep st p).questions,
        countOcc MARKER q.text = q.images.length := by
  have hp0 : countOcc MARKER p.text = 0 := countOcc_eq_zero_of_not_pyIn hp
  by_cases h1 : pyIn START p.text = true
  · rw [parseStep_start h1]
    dsimp only
    refine ⟨rfl, ?_⟩
    intro q hq
    by_cases hin : st.inQ
    · rw [if_pos hin] at hq
      exact countOcc_save h.1 h.2 q hq
    · rw [if_neg hin] at hq
      exact h.2 q hq
  · have h1f : pyIn START p.text = false := by simpa using h1
    by_cases h2 : pyIn ENDT p.text = true
    · rw [parseStep_endt h1f h2]
      dsimp only
      refine ⟨h.1, ?_⟩
      intro q hq
      by_cases hin : st.inQ
      · rw [if_pos hin] at hq
        exact countOcc_save h.1 h.2 q hq
      · rw [if_neg hin] at hq
        exact h.2 q hq
    · have h2f : pyIn ENDT p.text = false := by simpa using h2
      by_cases hin : st.inQ
      · by_cases him : p.images.isEmpty
        · rw [parseStep_noimg h1f h2f hin him]
          dsimp only
          refine ⟨?_, h.2⟩
          by_cases htx : (!p.text.isEmpty) = true
          · rw [if_pos htx]
            rw [List.map_append, List.sum_append, h.1]
            simp [hp0]
          · rw [if_neg htx]
            exact h.1
        · have him' : p.images.isEmpty = false := by simpa using him
          rw [parseStep_imgs h1f h2f hin him']
          dsimp only
          refine ⟨?_, h.2⟩
          have hmm : countOcc MARKER MARKER = 1 := by decide
          by_cases htx : (!(strip p.text).isEmpty) = true
          · rw [if_pos htx]
            rw [List.map_append, List.sum_append, List.map_append,
              List.sum_append, List.map_replicate, hmm,
              List.sum_const_nat, h.1]
            simp [hp0]
          · rw [if_neg htx]
            rw [List.map_append, List.sum_append, List.map_replicate, hmm,
              List.sum_const_nat, h.1]
            simp
      · have hin' : st.inQ = false := by simpa using hin
        rw [parseStep_outside h1f h2f hin']
        exact h

/-- C1 (amended): for every paragraph sequence in which no paragraph text
itself contains the literal marker `[BILD]`, every question produced by the
parser has exactly as many marker occurrences in its text as images in its
image list. -/
theorem marker_count_eq_image_count {α : Type} (ps : List (Paragraph α))
    (hps : ∀ p ∈ ps, pyIn MARKER p.text = false) :
    ∀ q ∈ parse_questions_with_images ps,
      countOcc MARKER q.text = q.images.length := by
  have hst := foldl_inv (fun st =>
      (st.buf.map (countOcc MARKER)).sum = st.imgs.length
      ∧ ∀ q ∈ st.questions, countOcc MARKER q.text = q.images.length)
    ps initState (fun q p hp h => countOcc_step p (hps p hp) h)
    ⟨rfl, fun q hq => absurd hq (List.not_mem_nil q)⟩
  intro q hq
  rw [parse_eq_finalize] at hq
  by_cases hin : (stateAfter ps).inQ
  · rw [if_pos hin] at hq
    exact countOcc_save hst.1 hst.2 q hq
  · rw [if_neg hin] at hq
    exact hst.2 q hq

/-- Witness for the amended C1 at a concrete input with one image. -/
theorem marker_count_witness :
    countOcc MARKER "Q1\n[BILD]".data = [(5 : Nat)].length :=
  marker_count_eq_image_count
    [⟨START, []⟩, ⟨"Q1".data, [(5 : Nat)]⟩, ⟨ENDT, []⟩]
    (by decide) ⟨"Q1\n[BILD]".data, [5]⟩ (by decide)

/-! ### Claim C2: delimiter recognition -/

/-- Counterexample to C2 as stated: a paragraph whose trimmed text is not
the start token, but which contains it among other text, is still treated
as a start delimiter — it opens a block that captures the following
paragraph. -/
theorem delimiter_containment_counterexample :
    strip "x ---START--- y".data ≠ START
    ∧ parse_questions_with_images
        [⟨"x ---START--- y".data, ([] : List Nat)⟩, ⟨"hello".data, []⟩]
      = [⟨"hello".data, []⟩] := by decide

/-- C2 (amended): a paragraph is treated as a start delimiter exactly when
its text contains the start token as a substring (checked before the end
token), and as an end delimiter when its text contains the end token but
not the start token; such a paragraph behaves exactly like a pure
delimiter paragraph. -/
theorem delimiter_by_containment {α : Type} (a b : List (Paragraph α))
    (p : Paragraph α) :
    (pyIn START p.text = true →
      parse_questions_with_images (a ++ p :: b)
        = parse_questions_with_images (a ++ (⟨START, []⟩ : Paragraph α) :: b))
    ∧ (pyIn START p.text = false → pyIn ENDT p.text = true →
      parse_questions_with_images (a ++ p :: b)
        = parse_questions_with_images (a ++ (⟨ENDT, []⟩ : Paragraph α) :: b)) := by
  have key : ∀ r : Paragraph α, parseStep (stateAfter a) p
        = parseStep (stateAfter a) r →
      parse_questions_with_images (a ++ p :: b)
        = parse_questions_with_images (a ++ r :: b) := by
    intro r hstep
    rw [parse_eq_finalize, parse_eq_finalize]
    have e1 : ∀ s : Paragraph α, stateAfter (a ++ s :: b)
        = b.foldl parseStep (parseStep (stateAfter a) s) := by
      intro s
      unfold stateAfter
      rw [List.foldl_append, List.foldl_cons]
    rw [e1 p, e1 r, hstep]
  constructor
  · intro h1
    apply key
    rw [parseStep_start h1]
    have hS : pyIn START START = true := by decide
    rw [parseStep_start (p := (⟨START, []⟩ : Paragraph α)) hS]
  · intro h1 h2
    apply key
    rw [parseStep_endt h1 h2]
    have hA : pyIn START ENDT = false := by decide
    have hB : pyIn ENDT ENDT = true := by decide
    rw [parseStep_endt (p := (⟨ENDT, []⟩ : Paragraph α)) hA hB]

/-- Witness for the amended C2 at a concrete input. -/
theorem delimiter_by_containment_witness :
    parse_questions_with_images
        ([] ++ (⟨"x ---START--- y".data, ([] : List Nat)⟩ : Paragraph Nat)
          :: [⟨"hello".data, []⟩])
      = parse_questions_with_images
        ([] ++ (⟨START, []⟩ : Paragraph Nat) :: [⟨"hello".data, []⟩]) :=
  (delimiter_by_containment [] [⟨"hello".data, []⟩]
    ⟨"x ---START--- y".data, []⟩).1 (by decide)

/-! ### Claim C5: text buffering of image-free paragraphs -/

/-- Counterexample to C5 as stated: a blank (empty) interior line of a block
is dropped by the parser, not preserved in the question text. -/
theorem blank_line_counterexample :
    parse_questions_with_images
        [⟨START, []⟩, ⟨"a".data, ([] : List Nat)⟩, ⟨[], []⟩,
         ⟨"b".data, []⟩, ⟨ENDT, []⟩]
      = [⟨"a\nb".data, []⟩]
    ∧ "a\nb".data ≠ "a\n\nb".data := by decide

/-- C5 (amended): while inside a block, a paragraph with no images has its
raw text appended to the text buffer exactly when that text is a non-empty
string — independently of blankness and of its position in the block; an
empty text line is always dropped. -/
theorem noimg_text_buffering {α : Type} (ps : List (Paragraph α))
    (p : Paragraph α) (hin : (stateAfter ps).inQ = true)
    (h1 : pyIn START p.text = false) (h2 : pyIn ENDT p.text = false)
    (h3 : p.images = []) :
    (p.text ≠ [] → stateAfter (ps ++ [p])
        = ⟨(stateAfter ps).questions, (stateAfter ps).imgs,
           (stateAfter ps).buf ++ [p.text], true⟩)
    ∧ (p.text = [] → stateAfter (ps ++ [p]) = stateAfter ps) := by
  have him : p.images.isEmpty = true := by simp [h3]
  have e1 : stateAfter (ps ++ [p]) = parseStep (stateAfter ps) p := by
    unfold stateAfter
    rw [List.foldl_append, List.foldl_cons, List.foldl_nil]
  constructor
  · intro htx
    rw [e1, parseStep_noimg h1 h2 hin him]
    have : (!p.text.isEmpty) = true := by simpa using htx
    rw [this]
    simp
  · intro htx
    rw [e1, parseStep_noimg h1 h2 hin him]
    have : (!p.text.isEmpty) = false := by simpa using htx
    rw [this]
    have : stateAfter ps
        = ⟨(stateAfter ps).questions, (stateAfter ps).imgs,
           (stateAfter ps).buf, (stateAfter ps).inQ⟩ := rfl
    rw [hin] at this
    simp [← this]

/-- Witness for the amended C5 at concrete inputs, one per conjunct. -/
theorem noimg_text_buffering_witness :
    stateAfter [(⟨START, []⟩ : Paragraph Nat), ⟨"a".data, []⟩]
      = ⟨(stateAfter [(⟨START, []⟩ : Paragraph Nat)]).questions,
         (stateAfter [(⟨START, []⟩ : Paragraph Nat)]).imgs,
         (stateAfter [(⟨START, []⟩ : Paragraph Nat)]).buf ++ ["a".data],
         true⟩
    ∧ stateAfter [(⟨START, []⟩ : Paragraph Nat), ⟨[], []⟩]
      = stateAfter [(⟨START, []⟩ : Paragraph Nat)] :=
  ⟨(noimg_text_buffering [⟨START, []⟩] ⟨"a".data, []⟩ (by decide)
      (by decide) (by decide) rfl).1 (by decide),
   (noimg_text_buffering [⟨START, []⟩] ⟨[], []⟩ (by decide)
      (by decide) (by decide) rfl).2 rfl⟩

/-! ### The renumbering transformer

Every encoder renumbers with Python
`re.sub(pattern, replacement, text, flags=re.IGNORECASE)` where the pattern
is the label `Aufgabe` (group 1 also captures the following whitespace run)
followed by a digit run, and the replacement keeps group 1 and substitutes
the digit run by `str(idx + 1)`.  The character classes are modelled over
ASCII. -/

def labelChars : Str := "aufgabe".data

/-- Case-insensitive literal match of `pat` (given lowercased) at the head
of `s`: returns the matched characters as they appear in `s`, and the
rest. -/
def matchCI (pat s : Str) : Option (Str × Str) :=
  if pat.length ≤ s.length ∧ (s.take pat.length).map Char.toLower = pat then
    some (s.take pat.length, s.drop pat.length)
  else none

/-- Match of the renumbering pattern at the head of `s`: the label,
case-insensitively, then a non-empty whitespace run, then a non-empty digit
run (both greedy).  Returns group 1 (label plus whitespace, unchanged) and
the rest after the digit run. -/
def matchAufgabe (s : Str) : Option (Str × Str) :=
  match matchCI labelChars s with
  | none => none
  | some (lab, r1) =>
    if r1.takeWhile isPySpace ≠ []
        ∧ (r1.dropWhile isPySpace).takeWhile Char.isDigit ≠ [] then
      some (lab ++ r1.takeWhile isPySpace,
            (r1.dropWhile isPySpace).dropWhile Char.isDigit)
    else none

theorem matchCI_some {pat s lab r : Str} (h : matchCI pat s = some (lab, r)) :
    lab = s.take pat.length ∧ r = s.drop pat.length ∧ pat.length ≤ s.length := by
  unfold matchCI at h
  by_cases hc : pat.length ≤ s.length
      ∧ (s.take pat.length).map Char.toLower = pat
  · rw [if_pos hc] at h
    simp only [Option.some.injEq, Prod.mk.injEq] at h
    exact ⟨h.1.symm, h.2.symm, hc.1⟩
  · rw [if_neg hc] at h
    cases h

theorem matchAufgabe_some {s g r : Str}
    (h : matchAufgabe s = some (g, r)) :
    ∃ lab r1, matchCI labelChars s = some (lab, r1)
      ∧ g = lab ++ r1.takeWhile isPySpace
      ∧ r = (r1.dropWhile isPySpace).dropWhile Char.isDigit := by
  unfold matchAufgabe at h
  cases hm : matchCI labelChars s with
  | none => rw [hm] at h; cases h
  | some lr =>
    obtain ⟨lab, r1⟩ := lr
    rw [hm] at h
    dsimp only at h
    by_cases hc : r1.takeWhile isPySpace ≠ []
        ∧ (r1.dropWhile isPySpace).takeWhile Char.isDigit ≠ []
    · rw [if_pos hc] at h
      simp only [Option.some.injEq, Prod.mk.injEq] at h
      exact ⟨lab, r1, rfl, h.1.symm, h.2.symm⟩
    · rw [if_neg hc] at h
      cases h

theorem matchAufgabe_rest_lt {s g r : Str}
    (h : matchAufgabe s = some (g, r)) : r.length < s.length := by
  obtain ⟨lab, r1, hci, _, hr⟩ := matchAufgabe_some h
  obtain ⟨_, hr1, hlen⟩ := matchCI_some hci
  subst hr hr1
  have d1 := (List.dropWhile_sublist (l :=
    (s.drop labelChars.length).dropWhile isPySpace) Char.isDigit).length_le
  have d2 := (List.dropWhile_sublist (l :=
    s.drop labelChars.length) isPySpace).length_le
  have d3 : (s.drop labelChars.length).length
      = s.length - labelChars.length := List.length_drop _ _
  have d4 : labelChars.length = 7 := rfl
  omega

/-- Fueled scanner implementing `re.sub` for the renumbering pattern: at
each position try a match; on success emit group 1 unchanged followed by
the replacement and continue after the digit run (the replacement is never
rescanned), otherwise keep one character and advance. -/
def reSubF (new : Str) : Nat → Str → Str
  | _, [] => []
  | 0, s => s
  | f + 1, c :: rest =>
    match matchAufgabe (c :: rest) with
    | some (g, r) => g ++ new ++ reSubF new f r
    | none => c :: reSubF new f rest

theorem reSubF_nil (new : Str) : ∀ f, reSubF new f [] = []
  | 0 => rfl
  | _ + 1 => rfl

theorem reSubF_irrel (new : Str) :
    ∀ (a : Nat) (s : Str) (b : Nat), s.length ≤ a → s.length ≤ b →
      reSubF new a s = reSubF new b s := by
  intro a
  induction a with
  | zero =>
    intro s b h1 _
    have hs : s = [] := List.length_eq_zero.mp (Nat.le_zero.mp h1)
    subst hs
    rw [reSubF_nil, reSubF_nil]
  | succ f ih =>
    intro s b h1 h2
    cases s with
    | nil => rw [reSubF_nil, reSubF_nil]
    | cons c rest =>
      cases b with
      | zero => simp at h2
      | succ g =>
        simp only [List.length_cons] at h1 h2
        cases hm : matchAufgabe (c :: rest) with
        | some pr =>
          obtain ⟨g1, r⟩ := pr
          have hr := matchAufgabe_rest_lt hm
          simp only [List.length_cons] at hr
          simp only [reSubF, hm]
          rw [ih r g (by omega) (by omega)]
        | none =>
          simp only [reSubF, hm]
          rw [ih rest g (by omega) (by omega)]

/-- `re.sub` of the renumbering pattern over a whole string. -/
def reSubAufgabe (new s : Str) : Str := reSubF new s.length s

theorem reSubAufgabe_nil (new : Str) : reSubAufgabe new [] = [] := rfl

theorem reSubAufgabe_match {c : Char} {rest g r new : Str}
    (h : matchAufgabe (c :: rest) = some (g, r)) :
    reSubAufgabe new (c :: rest) = g ++ new ++ reSubAufgabe new r := by
  unfold reSubAufgabe
  have hr := matchAufgabe_rest_lt h
  simp only [List.length_cons] at hr
  simp only [List.length_cons, reSubF, h]
  rw [reSubF_irrel new rest.length r r.length (by omega) (Nat.le_refl _)]

theorem reSubAufgabe_nomatch {c : Char} {rest new : Str}
    (h : matchAufgabe (c :: rest) = none) :
    reSubAufgabe new (c :: rest) = c :: reSubAufgabe new rest := by
  unfold reSubAufgabe
  simp only [List.length_cons, reSubF, h]

/-- Scanner deciding whether the renumbering pattern occurs anywhere. -/
def hasAufgabe : Str → Bool
  | [] => false
  | c :: rest => (matchAufgabe (c :: rest)).isSome || hasAufgabe rest

theorem matchAufgabe_none_of_head {c : Char} {rest : Str}
    (h : Char.toLower c ≠ 'a') : matchAufgabe (c :: rest) = none := by
  have hci : matchCI labelChars (c :: rest) = none := by
    unfold matchCI
    rw [if_neg]
    rintro ⟨-, h2⟩
    rw [show labelChars.length = 7 from rfl, List.take_succ_cons,
      List.map_cons, show labelChars = 'a' :: "ufgabe".data from rfl] at h2
    simp only [List.cons.injEq] at h2
    exact h h2.1
  unfold matchAufgabe
  rw [hci]

theorem not_space_of_digit {c : Char} (h : c.isDigit = true) :
    isPySpace c = false := by
  rcases hsp : isPySpace c with _ | _
  · rfl
  · exfalso
    have hmem : ((((c = ' ' ∨ c = '\t') ∨ c = '\n') ∨ c = '\r')
        ∨ c = '\x0b') ∨ c = '\x0c' := by
      simpa [isPySpace] using hsp
    rcases hmem with ((((rfl | rfl) | rfl) | rfl) | rfl) | rfl <;>
      exact absurd h (by decide)

theorem takeWhile_append_all {p : Char → Bool} :
    ∀ {xs : List Char}, (∀ x ∈ xs, p x = true) → ∀ ys : List Char,
      (xs ++ ys).takeWhile p = xs ++ ys.takeWhile p := by
  intro xs
  induction xs with
  | nil => intro _ ys; rfl
  | cons x xs ih =>
    intro h ys
    have hx := h x (List.mem_cons_self _ _)
    simp [List.takeWhile_cons, hx,
      ih (fun y hy => h y (List.mem_cons_of_mem _ hy)) ys]

theorem dropWhile_append_all {p : Char → Bool} :
    ∀ {xs : List Char}, (∀ x ∈ xs, p x = true) → ∀ ys : List Char,
      (xs ++ ys).dropWhile p = ys.dropWhile p := by
  intro xs
  induction xs with
  | nil => intro _ ys; rfl
  | cons x xs ih =>
    intro h ys
    have hx := h x (List.mem_cons_self _ _)
    simp [List.dropWhile_cons, hx,
      ih (fun y hy => h y (List.mem_cons_of_mem _ hy)) ys]

/-- Whether a string does not begin with a decimal digit (the condition for
a greedy digit run to stop exactly at a segment boundary). -/
def headNotDigitB : Str → Bool
  | [] => true
  | c :: _ => !c.isDigit

theorem takeWhile_digit_nil {ys : Str} (h : headNotDigitB ys = true) :
    ys.takeWhile Char.isDigit = [] := by
  cases ys with
  | nil => rfl
  | cons c rest =>
    have hc : c.isDigit = false := by simpa [headNotDigitB] using h
    simp [List.takeWhile_cons, hc]

theorem dropWhile_digit_self {ys : Str} (h : headNotDigitB ys = true) :
    ys.dropWhile Char.isDigit = ys := by
  cases ys with
  | nil => rfl
  | cons c rest =>
    have hc : c.isDigit = false := by simpa [headNotDigitB] using h
    simp [List.dropWhile_cons, hc]

theorem matchAufgabe_label {ds rest : Str} (hds : ds ≠ [])
    (hall : ∀ c ∈ ds, Char.isDigit c = true)
    (hrest : headNotDigitB rest = true) :
    matchAufgabe ("Aufgabe ".data ++ (ds ++ rest))
      = some ("Aufgabe ".data, rest) := by
  obtain ⟨d, ds', rfl⟩ : ∃ d ds', ds = d :: ds' := by
    cases ds with
    | nil => exact absurd rfl hds
    | cons d ds' => exact ⟨d, ds', rfl⟩
  have hsplit : "Aufgabe ".data ++ ((d :: ds') ++ rest)
      = "Aufgabe".data ++ (' ' :: ((d :: ds') ++ rest)) := rfl
  have htake : ("Aufgabe".data ++ (' ' :: ((d :: ds') ++ rest))).take
      labelChars.length = "Aufgabe".data := List.take_left' rfl
  have hdrop : ("Aufgabe".data ++ (' ' :: ((d :: ds') ++ rest))).drop
      labelChars.length = ' ' :: ((d :: ds') ++ rest) := List.drop_left' rfl
  have hlen : labelChars.length
      ≤ ("Aufgabe".data ++ (' ' :: ((d :: ds') ++ rest))).length := by
    rw [List.length_append]
    have e1 : labelChars.length = 7 := rfl
    have e2 : ("Aufgabe".data : Str).length = 7 := rfl
    omega
  have hmap : (("Aufgabe".data ++ (' ' :: ((d :: ds') ++ rest))).take
      labelChars.length).map Char.toLower = labelChars := by
    rw [htake]
    decide
  have hci : matchCI labelChars ("Aufgabe ".data ++ ((d :: ds') ++ rest))
      = some ("Aufgabe".data, ' ' :: ((d :: ds') ++ rest)) := by
    unfold matchCI
    rw [hsplit, if_pos ⟨hlen, hmap⟩, htake, hdrop]
  have hd : d.isDigit = true := hall d (List.mem_cons_self _ _)
  have hsp : isPySpace ' ' = true := by decide
  have hdneg : isPySpace d = false := not_space_of_digit hd
  have t1 : (' ' :: ((d :: ds') ++ rest)).takeWhile isPySpace = [' '] := by
    simp [List.takeWhile_cons, hsp, hdneg]
  have t2 : (' ' :: ((d :: ds') ++ rest)).dropWhile isPySpace
      = (d :: ds') ++ rest := by
    simp [List.dropWhile_cons, hsp, hdneg]
  have t3 : ((d :: ds') ++ rest).takeWhile Char.isDigit = d :: ds' := by
    rw [takeWhile_append_all hall rest, takeWhile_digit_nil hrest,
      List.append_nil]
  have t4 : ((d :: ds') ++ rest).dropWhile Char.isDigit = rest := by
    rw [dropWhile_append_all hall rest, dropWhile_digit_self hrest]
  have hcond : (([' '] : Str) ≠ [] ∧ (d :: ds') ≠ ([] : Str)) :=
    ⟨by simp, by simp⟩
  unfold matchAufgabe
  rw [hci]
  dsimp only
  rw [t1, t2, t3, t4, if_pos hcond]
  rw [show ("Aufgabe".data ++ [' '] : Str) = "Aufgabe ".data from rfl]

theorem reSubAufgabe_match_ne {s g r new : Str} (hs : s ≠ [])
    (h : matchAufgabe s = some (g, r)) :
    reSubAufgabe new s = g ++ new ++ reSubAufgabe new r := by
  cases s with
  | nil => exact absurd rfl hs
  | cons c rest => exact reSubAufgabe_match h

theorem reSub_skip_char {c : Char} (h : Char.toLower c ≠ 'a')
    (new s : Str) : reSubAufgabe new (c :: s) = c :: reSubAufgabe new s :=
  reSubAufgabe_nomatch (matchAufgabe_none_of_head h)

theorem hasAufgabe_false_id {new : Str} :
    ∀ {s : Str}, hasAufgabe s = false → reSubAufgabe new s = s := by
  intro s
  induction s with
  | nil => intro _; rfl
  | cons c rest ih =>
    intro h
    rw [hasAufgabe, Bool.or_eq_false_iff] at h
    have hm : matchAufgabe (c :: rest) = none := by
      rcases hm : matchAufgabe (c :: rest) with _ | v
      · rfl
      · exfalso
        have := h.1
        rw [hm] at this
        cases this
    rw [reSubAufgabe_nomatch hm, ih h.2]

/-- A family of texts with an arbitrary number of pattern occurrences:
each segment is the neutral text `x `, the label `Aufgabe `, one digit
run, and a closing space. -/
def buildSegs : List Str → Str
  | [] => []
  | ds :: rest =>
    'x' :: ' ' :: ("Aufgabe ".data ++ (ds ++ (' ' :: buildSegs rest)))

theorem reSub_buildSegs (new : Str) :
    ∀ dss : List Str,
      (∀ ds ∈ dss, ds ≠ [] ∧ ∀ c ∈ ds, Char.isDigit c = true) →
      reSubAufgabe new (buildSegs dss)
        = buildSegs (dss.map (fun _ => new)) := by
  intro dss
  induction dss with
  | nil => intro _; rfl
  | cons ds rest ih =>
    intro h
    obtain ⟨hne, hdig⟩ := h ds (List.mem_cons_self _ _)
    have hmatch : matchAufgabe
        ("Aufgabe ".data ++ (ds ++ (' ' :: buildSegs rest)))
        = some ("Aufgabe ".data, ' ' :: buildSegs rest) :=
      matchAufgabe_label hne hdig (by rfl)
    rw [buildSegs, reSub_skip_char (by decide), reSub_skip_char (by decide),
      reSubAufgabe_match_ne
        (List.append_ne_nil_of_left_ne_nil (by decide) _) hmatch,
      reSub_skip_char (by decide),
      ih (fun e he => h e (List.mem_cons_of_mem _ he))]
    simp [buildSegs, List.append_assoc]

/-- Decimal digit characters of `n`, the model of Python `str(n)` used for
the replacement number. -/
def natDigitsF : Nat → Nat → Str → Str
  | 0, _, acc => acc
  | f + 1, n, acc =>
    if n < 10 then Char.ofNat (48 + n) :: acc
    else natDigitsF f (n / 10) (Char.ofNat (48 + n % 10) :: acc)

def str_of_nat (n : Nat) : Str := natDigitsF (n + 1) n []

/-- The sequential-mode renumbering applied by the DOCX, TXT, HTML and JSON
encoders: Python `re.sub` on the Aufgabe pattern with the replacement
keeping group 1 and writing `str(idx + 1)` in place of the digit run. -/
def renumber_sequential (idx : Nat) (text : Str) : Str :=
  reSubAufgabe (str_of_nat (idx + 1)) text

/-- Counterexample to C3 as stated: with two occurrences of the pattern,
sequential renumbering rewrites the digit runs of BOTH occurrences, not
only the first. -/
theorem renumber_counterexample :
    renumber_sequential 0 "Aufgabe 5 x Aufgabe 7".data
      = "Aufgabe 1 x Aufgabe 1".data
    ∧ renumber_sequential 0 "Aufgabe 5 x Aufgabe 7".data
      ≠ "Aufgabe 1 x Aufgabe 7".data := by decide

/-- C3 (amended): sequential-mode renumbering replaces the digit run of
EVERY occurrence of the label-plus-digits pattern (scanning left to right,
case-insensitively) with idx+1, leaving the labels and all surrounding
text unchanged; if no occurrence exists, the text is returned unchanged. -/
theorem renumber_replaces_every_occurrence :
    (∀ (idx : Nat) (text : Str), hasAufgabe text = false →
      renumber_sequential idx text = text)
    ∧ ∀ (idx : Nat) (dss : List Str),
        (∀ ds ∈ dss, ds ≠ [] ∧ ∀ c ∈ ds, Char.isDigit c = true) →
        renumber_sequential idx (buildSegs dss)
          = buildSegs (dss.map (fun _ => str_of_nat (idx + 1))) :=
  ⟨fun _ _ h => hasAufgabe_false_id h,
   fun _ dss h => reSub_buildSegs _ dss h⟩

/-- Witness for the amended C3: a pattern-free text is fixed, and a text
with two occurrences has both digit runs rewritten. -/
theorem renumber_witness :
    renumber_sequential 3 "hello".data = "hello".data
    ∧ renumber_sequential 0 (buildSegs [['5'], ['7']])
      = buildSegs [str_of_nat 1, str_of_nat 1] :=
  ⟨renumber_replaces_every_occurrence.1 3 "hello".data (by decide),
   by
    have h := renumber_replaces_every_occurrence.2 0 [['5'], ['7']]
      (by decide)
    simpa using h⟩

/-! ### Export models (`ExportWorker`)

An embedded image blob is modelled by what the export loops observe of it:
either it decodes (PIL `Image.open` plus the later re-encode) to a pixel
size, or the per-image `try` block raises.  Encoded outputs keep every
data-dependent item in order; the byte-level serialization of scaled
images (base64 data, byte sizes) is abstracted by the scaled pixel
dimensions, and floats are modelled as exact rationals with `int(...)` of
a non-negative value taken as the floor. -/

inductive Img where
  | ok (w h : Nat)
  | bad
  deriving DecidableEq

def decode : Img → Option (Nat × Nat)
  | .ok w h => some (w, h)
  | .bad => none

/-- Export options: whether the `numbering` option equals `sequential`. -/
structure Opts where
  sequential : Bool
  deriving DecidableEq

def applyNumbering (o : Opts) (idx : Nat) (text : Str) : Str :=
  if o.sequential then renumber_sequential idx text else text

/-- Each export loop emits `int((idx + 1) / len(questions) * 100)` after
question `idx`; over the rationals this is the floor, i.e. Nat division. -/
def progressList (n : Nat) : List Nat :=
  (List.range n).map (fun idx => (idx + 1) * 100 / n)

/-- Python `s.replace(t, r)` for non-empty `t` (fueled left-to-right
scanner; `pyReplace` supplies adequate fuel). -/
def pyReplaceF (t r : Str) : Nat → Str → Str
  | _, [] => []
  | 0, s => s
  | f + 1, c :: rest =>
    if t.isPrefixOf (c :: rest) then
      r ++ pyReplaceF t r f ((c :: rest).drop t.length)
    else c :: pyReplaceF t r f rest

def pyReplace (t r s : Str) : Str := pyReplaceF t r s.length s

/-- Python `s.split(t)` for non-empty `t` (fueled). -/
def pySplitF (t : Str) : Nat → Str → List Str
  | _, [] => [[]]
  | 0, s => [s]
  | f + 1, c :: rest =>
    if t.isPrefixOf (c :: rest) then
      [] :: pySplitF t f ((c :: rest).drop t.length)
    else
      match pySplitF t f rest with
      | [] => [[c]]
      | x :: xs => (c :: x) :: xs

def pySplit (t s : Str) : List Str := pySplitF t s.length s

/-- Pixel bound shared by the HTML and JSON encoders:
`int(int(11.69 * 96) * 0.25)` evaluates to 280. -/
def MAX_HEIGHT_PIXELS : Nat := 280

/-- Height-bound scaling of the HTML and JSON encoders: when the height
exceeds the bound, the width becomes `int(w * (bound / h))` and the height
becomes exactly the bound. -/
def pixelScale (w h : Nat) : Nat × Nat :=
  if MAX_HEIGHT_PIXELS < h then
    (w * MAX_HEIGHT_PIXELS / h, MAX_HEIGHT_PIXELS)
  else (w, h)

/-- DOCX bound: 25% of the 29.7 cm A4 height, converted to inches. -/
def MAX_HEIGHT_INCHES : ℚ := (297 / 10) * (25 / 100) / (254 / 100)

/-- DOCX image scaling: the height in inches at 96 DPI is compared against
the bound; when exceeded both dimensions are scaled by
`MAX_HEIGHT_INCHES / height_inches`. -/
def docxScale (w h : Nat) : Nat × Nat :=
  if MAX_HEIGHT_INCHES < (h : ℚ) / 96 then
    ((⌊(w : ℚ) * (MAX_HEIGHT_INCHES / ((h : ℚ) / 96))⌋).toNat,
     (⌊(h : ℚ) * (MAX_HEIGHT_INCHES / ((h : ℚ) / 96))⌋).toNat)
  else (w, h)

/-- Dimension computation of `ImageCache.scale_and_cache_image`: uniform
scaling by `min(max_width/width, max_height/height)` when either dimension
exceeds its bound. -/
def scale_and_cache_image (w h maxW maxH : Nat) : Nat × Nat :=
  if maxW < w ∨ maxH < h then
    ((⌊(w : ℚ) * min ((maxW : ℚ) / w) ((maxH : ℚ) / h)⌋).toNat,
     (⌊(h : ℚ) * min ((maxW : ℚ) / w) ((maxH : ℚ) / h)⌋).toNat)
  else (w, h)

/-- One record of the structured-data output's `images` array; the base64
`data` and byte `size` are abstracted by the scaled dimensions. -/
structure JsonImageRec where
  index : Nat
  w : Nat
  h : Nat
  deriving DecidableEq

structure JsonQuestionRec where
  number : Option Nat
  text : Str
  images_count : Nat
  images : List JsonImageRec
  deriving DecidableEq

structure JsonData where
  total_questions : Nat
  questions : List JsonQuestionRec
  deriving DecidableEq

/-- The JSON per-question image loop: enumerate the raw images; a failed
decode is logged and skipped (the enumeration index still advances). -/
def jsonImages : Nat → List Img → List JsonImageRec
  | _, [] => []
  | i, img :: rest =>
    match decode img with
    | some (w, h) =>
      ⟨i + 1, (pixelScale w h).1, (pixelScale w h).2⟩
        :: jsonImages (i + 1) rest
    | none => jsonImages (i + 1) rest

def jsonQuestion (o : Opts) (idx : Nat) (q : Question Img) :
    JsonQuestionRec :=
  ⟨if o.sequential then some (idx + 1) else none,
   applyNumbering o idx q.text, q.images.length, jsonImages 0 q.images⟩

def export_to_json (o : Opts) (qs : List (Question Img)) :
    JsonData × List Nat :=
  (⟨qs.length, qs.enum.map (fun pr => jsonQuestion o pr.1 pr.2)⟩,
   progressList qs.length)

/-- The flat-text output of one question: text with each marker replaced
by the placeholder word, an image-count line when images are present, and
the `=` separator block. -/
def txtBlock (o : Opts) (idx : Nat) (q : Question Img) : Str :=
  pyReplace MARKER "[Изображение]".data (applyNumbering o idx q.text)
    ++ '\n' ::
      ((if !q.images.isEmpty then
          "Количество изображений: ".data
            ++ str_of_nat q.images.length ++ ['\n']
        else [])
       ++ '\n' :: (List.replicate 50 '=' ++ "\n\n".data))

def export_to_txt (o : Opts) (qs : List (Question Img)) : Str × List Nat :=
  ((qs.enum.map (fun pr => txtBlock o pr.1 pr.2)).flatten,
   progressList qs.length)

/-- A data-dependent piece of the HTML output; static markup around the
pieces is elided. -/
inductive HtmlPiece where
  | textPart (s : Str)
  | image (w h : Nat)
  | placeholder (i : Nat)
  | separator
  deriving DecidableEq

/-- The HTML per-question loop over `text.split('[BILD]')`: a non-blank
part is emitted with newlines turned into `<br>`; while parts remain, each
consumes one image, which is either embedded scaled or, on decode failure,
replaced by a visible numbered placeholder. -/
def htmlBody : List Str → List Img → Nat → List HtmlPiece
  | [], _, _ => []
  | part :: rest, imgs, i =>
    (if (strip part).isEmpty then []
     else [HtmlPiece.textPart (pyReplace ['\n'] "<br>".data part)])
      ++ match imgs with
         | [] => htmlBody rest [] (i + 1)
         | img :: irest =>
           (match decode img with
            | some (w, h) =>
              [HtmlPiece.image (pixelScale w h).1 (pixelScale w h).2]
            | none => [HtmlPiece.placeholder (i + 1)])
             ++ htmlBody rest irest (i + 1)

def htmlQuestion (o : Opts) (n idx : Nat) (q : Question Img) :
    List HtmlPiece :=
  htmlBody (pySplit MARKER (applyNumbering o idx q.text)) q.images 0
    ++ (if idx < n - 1 then [HtmlPiece.separator] else [])

def export_to_html (o : Opts) (qs : List (Question Img)) :
    List HtmlPiece × List Nat :=
  ((qs.enum.map (fun pr => htmlQuestion o qs.length pr.1 pr.2)).flatten,
   progressList qs.length)

/-- A data-dependent item of the DOCX output. -/
inductive DocxItem where
  | para (line : Str) (indented : Bool)
  | picture (w h : Nat)
  | sep
  deriving DecidableEq

def isIndented (line : Str) : Bool :=
  "    ".data.isPrefixOf line || ['\t'].isPrefixOf line

/-- The DOCX lines of one non-blank text part: each line of the part is
kept when non-empty, or when empty provided the part is not the first. -/
def docxLines (i : Nat) (part : Str) : List DocxItem :=
  if (strip part).isEmpty then []
  else
    (pySplit ['\n'] part).filterMap fun line =>
      if !line.isEmpty || 0 < i then
        some (DocxItem.para (rstrip line) (isIndented line))
      else none

/-- The DOCX per-image `try` block: a decodable image is inserted (scaled
when over the bound), a failing one is logged and produces nothing. -/
def docxImgItems : Img → List DocxItem
  | .ok w h => [DocxItem.picture (docxScale w h).1 (docxScale w h).2]
  | .bad => []

def docxBody : List Str → List Img → Nat → List DocxItem
  | [], _, _ => []
  | part :: rest, imgs, i =>
    docxLines i part
      ++ match imgs with
         | [] => docxBody rest [] (i + 1)
         | img :: irest => docxImgItems img ++ docxBody rest irest (i + 1)

def docxQuestion (o : Opts) (n idx : Nat) (q : Question Img) :
    List DocxItem :=
  docxBody (pySplit MARKER (applyNumbering o idx q.text)) q.images 0
    ++ (if idx < n - 1 then [DocxItem.sep] else [])

def export_to_docx (o : Opts) (qs : List (Question Img)) :
    List DocxItem × List Nat :=
  ((qs.enum.map (fun pr => docxQuestion o qs.length pr.1 pr.2)).flatten,
   progressList qs.length)

/-! ### Claim C6: per-image failure handling -/

/-- Counterexample to C6 as stated: in the JSON export a failed image is
silently dropped from the `images` array (no placeholder of any kind,
while `images_count` still counts it), and in the DOCX export it produces
no output item at all. -/
theorem export_failure_counterexample :
    (export_to_json ⟨false⟩ [⟨"t".data, [Img.bad]⟩]).1
      = ⟨1, [⟨none, "t".data, 1, []⟩]⟩
    ∧ (export_to_docx ⟨false⟩ [⟨"[BILD]".data, [Img.bad]⟩]).1 = [] := by
  decide

theorem html_placeholder_aux :
    ∀ (a : List Img) (parts : List Str) (b : List Img) (i : Nat),
      a.length < parts.length →
      HtmlPiece.placeholder (i + a.length + 1)
        ∈ htmlBody parts (a ++ Img.bad :: b) i := by
  intro a
  induction a with
  | nil =>
    intro parts b i h
    cases parts with
    | nil => simp at h
    | cons part rest =>
      simp only [List.length_nil, List.nil_append, Nat.add_zero]
      exact List.mem_append_right _
        (List.mem_append_left _ (List.mem_singleton.mpr rfl))
  | cons x a' ih =>
    intro parts b i h
    cases parts with
    | nil => simp at h
    | cons part rest =>
      have h' : a'.length < rest.length := by
        simp only [List.length_cons] at h
        omega
      have hmem := ih rest b (i + 1) h'
      have harith : i + (x :: a').length + 1 = i + 1 + a'.length + 1 := by
        simp only [List.length_cons]
        omega
      rw [harith]
      cases x with
      | ok w hh =>
        exact List.mem_append_right _ (List.mem_append_right _ hmem)
      | bad =>
        exact List.mem_append_right _ (List.mem_append_right _ hmem)

theorem jsonImages_append_bad :
    ∀ (a : List Img) (k : Nat) (b : List Img),
      jsonImages k (a ++ Img.bad :: b)
        = jsonImages k a ++ jsonImages (k + a.length + 1) b := by
  intro a
  induction a with
  | nil =>
    intro k b
    simp [jsonImages, decode]
  | cons x a' ih =>
    intro k b
    have harith : k + (x :: a').length + 1 = k + 1 + a'.length + 1 := by
      simp only [List.length_cons]
      omega
    cases x with
    | ok w h =>
      show (⟨k + 1, (pixelScale w h).1, (pixelScale w h).2⟩ : JsonImageRec)
          :: jsonImages (k + 1) (a' ++ Img.bad :: b) = _
      rw [ih (k + 1) b, harith]
      rfl
    | bad =>
      show jsonImages (k + 1) (a' ++ Img.bad :: b) = _
      rw [ih (k + 1) b, harith]
      rfl

/-- The picture items of a DOCX item list, in order. -/
def picsOf (items : List DocxItem) : List (Nat × Nat) :=
  items.filterMap fun it =>
    match it with
    | DocxItem.picture w h => some (w, h)
    | _ => none

theorem picsOf_append (l1 l2 : List DocxItem) :
    picsOf (l1 ++ l2) = picsOf l1 ++ picsOf l2 :=
  List.filterMap_append _ _ _

theorem picsOf_docxLines (i : Nat) (part : Str) :
    picsOf (docxLines i part) = [] := by
  unfold docxLines
  by_cases hc : (strip part).isEmpty = true
  · rw [if_pos hc]
    rfl
  · rw [if_neg hc]
    generalize pySplit ['\n'] part = lines
    induction lines with
    | nil => rfl
    | cons line rest ih =>
      rw [List.filterMap_cons]
      by_cases hl : ((!line.isEmpty || 0 < i) = true)
      · rw [if_pos hl]
        exact ih
      · rw [if_neg hl]
        exact ih

theorem docx_pictures_from_decodable :
    ∀ (parts : List Str) (imgs : List Img) (i : Nat),
      picsOf (docxBody parts imgs i)
        = (imgs.take parts.length).filterMap
            (fun img => (decode img).map (fun d => docxScale d.1 d.2)) := by
  intro parts
  induction parts with
  | nil =>
    intro imgs i
    simp [docxBody, picsOf]
  | cons part rest ih =>
    intro imgs i
    cases imgs with
    | nil =>
      rw [show docxBody (part :: rest) [] i
            = docxLines i part ++ docxBody rest [] (i + 1) from rfl,
        picsOf_append, picsOf_docxLines, ih [] (i + 1)]
      simp
    | cons img irest =>
      rw [show docxBody (part :: rest) (img :: irest) i
            = docxLines i part
              ++ (docxImgItems img ++ docxBody rest irest (i + 1)) from rfl,
        picsOf_append, picsOf_append, picsOf_docxLines, ih irest (i + 1)]
      cases img with
      | ok w h =>
        simp [docxImgItems, picsOf, decode, List.take_succ_cons,
          List.filterMap_cons]
      | bad =>
        simp [docxImgItems, picsOf, decode, List.take_succ_cons,
          List.filterMap_cons]

/-- C6 (amended): a failing image never aborts an export and the remaining
items are still processed, but only the HTML encoder inserts a visible
numbered placeholder for it; the JSON image loop skips it (keeping the
enumeration indices of the later images), and the DOCX encoder emits
pictures exactly for the decodable images among those its loop reaches. -/
theorem export_image_failure_behavior :
    (∀ (parts : List Str) (a b : List Img), a.length < parts.length →
      HtmlPiece.placeholder (a.length + 1)
        ∈ htmlBody parts (a ++ Img.bad :: b) 0)
    ∧ (∀ (k : Nat) (a b : List Img),
        jsonImages k (a ++ Img.bad :: b)
          = jsonImages k a ++ jsonImages (k + a.length + 1) b)
    ∧ (∀ (parts : List Str) (imgs : List Img) (i : Nat),
        picsOf (docxBody parts imgs i)
          = (imgs.take parts.length).filterMap
              (fun img => (decode img).map (fun d => docxScale d.1 d.2))) :=
  ⟨fun parts a b h => by
      have hmem := html_placeholder_aux a parts b 0 h
      simpa using hmem,
   fun k a b => jsonImages_append_bad a k b,
   docx_pictures_from_decodable⟩

/-- Witness for the amended C6: a concrete failed image yields a visible
placeholder in the HTML output. -/
theorem export_image_failure_witness :
    HtmlPiece.placeholder 1 ∈ htmlBody ["p".data] [Img.bad] 0 := by
  have h := export_image_failure_behavior.1 ["p".data] [] [] (by decide)
  simpa using h

/-! ### Claim C7: progress values -/

/-- Counterexample to C7 as stated: with three questions, the progress
emitted after the second is 66 (truncation), while rounding 100·2/3 gives
67. -/
theorem progress_rounding_counterexample :
    (export_to_json ⟨false⟩
        [⟨"a".data, []⟩, ⟨"b".data, []⟩, ⟨"c".data, []⟩]).2
      = [33, 66, 100]
    ∧ round ((100 * 2 : ℚ) / 3) = 67
    ∧ (66 : Nat) ≠ 67 := by
  refine ⟨by decide, ?_, by decide⟩
  norm_num [round_eq]

/-- C7 (amended): after the k-th question (0-based `k`) of `n` the emitted
progress value is the TRUNCATION `⌊100 (k+1) / n⌋`, not the rounding, in
each of the four modelled encoders. -/
theorem progress_is_floor (o : Opts) (qs : List (Question Img)) (k : Nat)
    (h : k < qs.length) :
    ((export_to_json o qs).2)[k]? = some ((k + 1) * 100 / qs.length)
    ∧ ((export_to_txt o qs).2)[k]? = some ((k + 1) * 100 / qs.length)
    ∧ ((export_to_html o qs).2)[k]? = some ((k + 1) * 100 / qs.length)
    ∧ ((export_to_docx o qs).2)[k]? = some ((k + 1) * 100 / qs.length) := by
  have hp : (progressList qs.length)[k]?
      = some ((k + 1) * 100 / qs.length) := by
    unfold progressList
    rw [List.getElem?_map, List.getElem?_range h]
    rfl
  exact ⟨hp, hp, hp, hp⟩

/-- Witness for the amended C7: second of three questions reports 66. -/
theorem progress_is_floor_witness :
    ((export_to_json ⟨false⟩
        [⟨"a".data, []⟩, ⟨"b".data, []⟩, ⟨"c".data, []⟩]).2)[1]?
      = some 66 :=
  (progress_is_floor ⟨false⟩
    [⟨"a".data, []⟩, ⟨"b".data, []⟩, ⟨"c".data, []⟩] 1 (by decide)).1

/-! ### Claim C9: export determinism / destination independence -/

/-- An export run as the worker performs it: the destination path is
recorded, the content is produced by the encoder from questions and
options alone. -/
def run_json_export (o : Opts) (qs : List (Question Img)) (dest : Str) :
    Str × JsonData := (dest, (export_to_json o qs).1)

def run_txt_export (o : Opts) (qs : List (Question Img)) (dest : Str) :
    Str × Str := (dest, (export_to_txt o qs).1)

/-- C9: for a fixed question selection and options, running the
structured-data (JSON) and flat-text (TXT) exports to two distinct
destinations produces identical contents — both encoders are
deterministic functions of their inputs, independent of the
destination. -/
theorem export_deterministic (o : Opts) (qs : List (Question Img))
    (d1 d2 : Str) :
    (run_json_export o qs d1).2 = (run_json_export o qs d2).2
    ∧ (run_txt_export o qs d1).2 = (run_txt_export o qs d2).2 :=
  ⟨rfl, rfl⟩

/-! ### Claim C8: scaling idempotence and monotonicity -/

theorem floor_toNat_mul_le_self {n : Nat} {r : ℚ} (hr1 : r ≤ 1) :
    (⌊(n : ℚ) * r⌋).toNat ≤ n := by
  have h1 : (n : ℚ) * r ≤ (n : ℚ) := by
    calc (n : ℚ) * r ≤ (n : ℚ) * 1 :=
          mul_le_mul_of_nonneg_left hr1 (by positivity)
      _ = (n : ℚ) := mul_one _
  have h2 : ⌊(n : ℚ) * r⌋ ≤ (n : ℤ) := by
    have h3 := Int.floor_le_floor h1
    rwa [Int.floor_natCast] at h3
  exact Int.toNat_le.mpr h2

theorem floor_toNat_mul_le_bound {n m : Nat} {r : ℚ} (hn : 0 < n)
    (hr : r ≤ (m : ℚ) / n) : (⌊(n : ℚ) * r⌋).toNat ≤ m := by
  have hnq : (0 : ℚ) < (n : ℚ) := by exact_mod_cast hn
  have h1 : (n : ℚ) * r ≤ (n : ℚ) * ((m : ℚ) / n) :=
    mul_le_mul_of_nonneg_left hr (le_of_lt hnq)
  have h2 : (n : ℚ) * ((m : ℚ) / n) = (m : ℚ) := by
    field_simp
  have h3 : ⌊(n : ℚ) * r⌋ ≤ (m : ℤ) := by
    have h4 := Int.floor_le_floor (h2 ▸ h1)
    rwa [Int.floor_natCast] at h4
  exact Int.toNat_le.mpr h3

/-- C8: both scaling routines of the program are idempotent and never
enlarge either dimension: `ImageCache.scale_and_cache_image` for every
bound pair, and the height-bound pixel scaling shared by the HTML and
JSON encoders. -/
theorem scaling_idempotent_and_shrinking (w h maxW maxH : Nat)
    (hw : 0 < w) (hh : 0 < h) :
    (scale_and_cache_image (scale_and_cache_image w h maxW maxH).1
        (scale_and_cache_image w h maxW maxH).2 maxW maxH
      = scale_and_cache_image w h maxW maxH
    ∧ (scale_and_cache_image w h maxW maxH).1 ≤ w
    ∧ (scale_and_cache_image w h maxW maxH).2 ≤ h)
    ∧ (pixelScale (pixelScale w h).1 (pixelScale w h).2 = pixelScale w h
    ∧ (pixelScale w h).1 ≤ w ∧ (pixelScale w h).2 ≤ h) := by
  constructor
  · by_cases hc : maxW < w ∨ maxH < h
    · have e : scale_and_cache_image w h maxW maxH
          = ((⌊(w : ℚ) * min ((maxW : ℚ) / w) ((maxH : ℚ) / h)⌋).toNat,
             (⌊(h : ℚ) * min ((maxW : ℚ) / w) ((maxH : ℚ) / h)⌋).toNat) := by
        unfold scale_and_cache_image
        rw [if_pos hc]
      have hwq : (0 : ℚ) < (w : ℚ) := by exact_mod_cast hw
      have hhq : (0 : ℚ) < (h : ℚ) := by exact_mod_cast hh
      have hr1 : min ((maxW : ℚ) / w) ((maxH : ℚ) / h) ≤ 1 := by
        rcases hc with hcw | hch
        · refine le_trans (min_le_left _ _) ?_
          rw [div_le_one hwq]
          exact_mod_cast le_of_lt hcw
        · refine le_trans (min_le_right _ _) ?_
          rw [div_le_one hhq]
          exact_mod_cast le_of_lt hch
      have hbw : (⌊(w : ℚ) * min ((maxW : ℚ) / w)
          ((maxH : ℚ) / h)⌋).toNat ≤ maxW :=
        floor_toNat_mul_le_bound hw (min_le_left _ _)
      have hbh : (⌊(h : ℚ) * min ((maxW : ℚ) / w)
          ((maxH : ℚ) / h)⌋).toNat ≤ maxH :=
        floor_toNat_mul_le_bound hh (min_le_right _ _)
      refine ⟨?_, ?_, ?_⟩
      · rw [e]
        show scale_and_cache_image
            (⌊(w : ℚ) * min ((maxW : ℚ) / w) ((maxH : ℚ) / h)⌋).toNat
            (⌊(h : ℚ) * min ((maxW : ℚ) / w) ((maxH : ℚ) / h)⌋).toNat
            maxW maxH = _
        unfold scale_and_cache_image
        rw [if_neg (by omega)]
      · rw [e]
        exact floor_toNat_mul_le_self hr1
      · rw [e]
        exact floor_toNat_mul_le_self hr1
    · have e : scale_and_cache_image w h maxW maxH = (w, h) := by
        unfold scale_and_cache_image
        rw [if_neg hc]
      refine ⟨?_, ?_, ?_⟩
      · rw [e]
        exact e
      · rw [e]
      · rw [e]
  · by_cases hp : MAX_HEIGHT_PIXELS < h
    · have e : pixelScale w h
          = (w * MAX_HEIGHT_PIXELS / h, MAX_HEIGHT_PIXELS) := by
        unfold pixelScale
        rw [if_pos hp]
      have hb : w * MAX_HEIGHT_PIXELS / h ≤ w := by
        have h1 : w * MAX_HEIGHT_PIXELS ≤ w * h :=
          Nat.mul_le_mul_left w (le_of_lt hp)
        have h2 : w * h / h = w := Nat.mul_div_cancel w (by omega)
        calc w * MAX_HEIGHT_PIXELS / h ≤ w * h / h :=
              Nat.div_le_div_right h1
          _ = w := h2
      refine ⟨?_, ?_, ?_⟩
      · rw [e]
        show pixelScale (w * MAX_HEIGHT_PIXELS / h) MAX_HEIGHT_PIXELS = _
        unfold pixelScale
        rw [if_neg (lt_irrefl _)]
      · rw [e]
        exact hb
      · rw [e]
        exact le_of_lt hp
    · have e : pixelScale w h = (w, h) := by
        unfold pixelScale
        rw [if_neg hp]
      refine ⟨?_, ?_, ?_⟩
      · rw [e]
        exact e
      · rw [e]
      · rw [e]

/-- Witness for C8 at a concrete image of 800x600 under bounds 600x400. -/
theorem scaling_idempotent_witness :
    scale_and_cache_image (scale_and_cache_image 800 600 600 400).1
        (scale_and_cache_image 800 600 600 400).2 600 400
      = scale_and_cache_image 800 600 600 400 :=
  (scaling_idempotent_and_shrinking 800 600 600 400
    (by decide) (by decide)).1.1

end QuestionApp
